import Mathlib

/-!
Verification of the `transformer_lm/datasets.py` dataset loader.

The loader fetches, caches, and tokenizes three language-modeling corpora:
word-level (PTB, WikiText-2/103, via `_load`) and character-level (enwik8).
We embed the pure core of each routine over lists:

* a line of a text file is a `List Char`; a file is a list of lines;
* Python `str.strip()` is `pystrip`; Python `split(" ")` is `splitOnSpace`;
* the `set`-then-`enumerate` vocabulary is an enumeration list without
  duplicates (`buildVocab`, `List.dedup`); the Python `set` iteration order
  is unspecified, and no claim below depends on the enumeration order;
* a `dict[key]` lookup that can raise `KeyError` is `idxOf : ... → Option Nat`,
  and encoding a token stream is `encodeList`, returning `none` exactly when
  some lookup fails;
* the filesystem/network skeleton (`os.path.exists` check, download on miss)
  is explicit state passing over a `World` holding the remote corpus and the
  optional cache content.
-/

/-- A token of the word-level corpora: a string modelled as a list of chars. -/
abbrev Tok := List Char

/-- One line of a text file (as produced by `readlines`, possibly with
trailing newline). -/
abbrev PyLine := List Char

/-- A text file: its list of lines. -/
abbrev PyFile := List PyLine

/-- The characters Python `str.strip()` removes: ASCII whitespace. -/
def isPySpace (c : Char) : Bool :=
  c = ' ' || c = '\t' || c = '\n' || c = '\r' || c = '\x0b' || c = '\x0c'

/-- Python `l.strip()`: drop leading and trailing whitespace. -/
def pystrip (l : List Char) : List Char :=
  ((l.dropWhile isPySpace).reverse.dropWhile isPySpace).reverse

/-- Python `s.split(" ")`: split on every single space character, keeping
empty fields; the empty string yields `[""]`. -/
def splitOnSpace : List Char → List (List Char)
  | [] => [[]]
  | c :: rest =>
    match splitOnSpace rest with
    | [] => [[]]
    | t :: ts => if c = ' ' then [] :: t :: ts else (c :: t) :: ts

/-- The reserved end-of-sequence token `"<eos>"`. -/
def eos : Tok := ['<', 'e', 'o', 's', '>']

/-- The tokens of one line as encoded by `to_array`:
`itertools.chain(l.strip().split(" "), [eos])`. -/
def lineTokens (l : PyLine) : List Tok :=
  splitOnSpace (pystrip l) ++ [eos]

/-- All tokens of a file in encoding order (`to_array`'s comprehension). -/
def fileTokens (f : PyFile) : List Tok :=
  (f.map lineTokens).flatten

/-- The token multiset the vocabulary set is built from:
`(t for l in fid.readlines() for t in l.strip().split(" "))`. -/
def trainVocabTokens (f : PyFile) : List Tok :=
  (f.map (fun l => splitOnSpace (pystrip l))).flatten

/-- `_load`'s vocabulary: the set of training tokens plus `eos`, enumerated.
We model the Python `set` as a duplicate-free enumeration list; `vocab.add(eos)`
appends `eos` when absent. -/
def buildVocab (train : PyFile) : List Tok :=
  let v := (trainVocabTokens train).dedup
  if eos ∈ v then v else v ++ [eos]

/-- `vocab[w]`: position of the first occurrence of `w` in the enumeration,
`none` when absent (Python raises `KeyError`). -/
def idxOf {α : Type} [DecidableEq α] : List α → α → Option Nat
  | [], _ => none
  | t :: ts, w => if w = t then some 0 else (idxOf ts w).map (· + 1)

/-- Encode a token stream through the vocabulary; `none` exactly when some
token is missing (the `KeyError` propagating out of the comprehension). -/
def encodeList {α : Type} [DecidableEq α] (vl : List α) : List α → Option (List Nat)
  | [] => some []
  | t :: ts =>
    match idxOf vl t, encodeList vl ts with
    | some i, some is => some (i :: is)
    | _, _ => none

/-- `to_array(dataset)` of `_load`: encode all tokens of a file. -/
def encodeFile (vl : List Tok) (f : PyFile) : Option (List Nat) :=
  encodeList vl (fileTokens f)

/-- `[to_array(fn) for fn in filenames]`. -/
def encodeFiles (vl : List Tok) : List PyFile → Option (List (List Nat))
  | [] => some []
  | f :: fs =>
    match encodeFile vl f, encodeFiles vl fs with
    | some ids, some rest => some (ids :: rest)
    | _, _ => none

/-- `_load(save_dir, filenames)`: the first file is the training set; build the
vocabulary from it, then encode every file (training included). `none` covers
the `IndexError` on an empty file list and any `KeyError` during encoding. -/
def pyLoad : List PyFile → Option (List Tok × List (List Nat))
  | [] => none
  | train :: rest =>
    match encodeFiles (buildVocab train) (train :: rest) with
    | some ds => some (buildVocab train, ds)
    | none => none

/-- `num_test_bytes = 5000000  # 90 + 5 + 5 split`. -/
def numTestBytes : Nat := 5000000

/-- `train_data = data[: -2 * num_test_bytes]`. A Python negative slice bound
`-k` is `len - k` clamped at 0, which is exactly `Nat` subtraction. -/
def enwik8TrainRegion (data : List Nat) : List Nat :=
  data.take (data.length - 2 * numTestBytes)

/-- `valid_data = data[-2 * num_test_bytes : -num_test_bytes]`. -/
def enwik8ValidRegion (data : List Nat) : List Nat :=
  (data.take (data.length - numTestBytes)).drop (data.length - 2 * numTestBytes)

/-- `test_data = data[-num_test_bytes:]`. -/
def enwik8TestRegion (data : List Nat) : List Nat :=
  data.drop (data.length - numTestBytes)

/-- enwik8's vocabulary: the distinct byte values of the training region,
enumerated (`set(c for c in train_data)` then `enumerate`). -/
def enwik8Vocab (data : List Nat) : List Nat :=
  (enwik8TrainRegion data).dedup

/-- The pure core of `enwik8(save_dir)` after the raw bytes are in hand:
split, build the byte vocabulary from the training region, encode each
region (`to_array`); `none` when a lookup fails. -/
def enwik8Load (data : List Nat) : Option (List Nat × List Nat × List Nat × List Nat) :=
  (encodeList (enwik8Vocab data) (enwik8TrainRegion data)).bind fun a =>
    (encodeList (enwik8Vocab data) (enwik8ValidRegion data)).bind fun b =>
      (encodeList (enwik8Vocab data) (enwik8TestRegion data)).map fun c =>
        (enwik8Vocab data, a, b, c)

/-- `load_dataset(dataname)`: route the name to one of the three corpus
procedures. The procedures themselves perform I/O, so the dispatch is
parametrized by their results; `wikitextR` receives the `dataset` argument
string passed in the source (`"2"` or `"103"`). -/
def load_dataset {α : Type} (enwik8R ptbR : α) (wikitextR : String → α)
    (dataname : String) : α :=
  if dataname = "enwik8" then enwik8R
  else if dataname = "ptb" then ptbR
  else if dataname = "wikitext2" then wikitextR "2"
  else wikitextR "103"

/-- The validation at the top of `wikitext(dataset, save_dir)`:
`if dataset not in ("2", "103"): raise ValueError(...)`. -/
def wikitextCheck (dataset : String) : Except String Unit :=
  if ¬ (dataset = "2" ∨ dataset = "103") then
    Except.error "ValueError: Dataset must be either 2 or 103"
  else Except.ok ()

/-- The filesystem/network environment of one corpus: the immutable remote
content and the optional on-disk cache content. -/
structure World (κ : Type) where
  remote : κ
  cache : Option κ

/-- The `if not os.path.exists(...): download` skeleton shared by `wikitext`,
`ptb` and `enwik8`: read the cache when present, otherwise fetch the remote
corpus and populate the cache. Returns the corpus bytes, the updated world,
and whether the network was touched. -/
def cachedFetch {κ : Type} (w : World κ) : κ × World κ × Bool :=
  match w.cache with
  | some c => (c, w, false)
  | none => (w.remote, ⟨w.remote, some w.remote⟩, true)

/-- A full run of a word-level loader (`wikitext` / `ptb`): fetch (from cache
when possible), then `_load`. -/
def runWordLoad (w : World (List PyFile)) :
    Option (List Tok × List (List Nat)) × World (List PyFile) × Bool :=
  (pyLoad (cachedFetch w).1, (cachedFetch w).2.1, (cachedFetch w).2.2)

/-- A full run of `enwik8`: fetch the zip (from cache when possible), then
split and encode. -/
def runEnwik8Load (w : World (List Nat)) :
    Option (List Nat × List Nat × List Nat × List Nat) × World (List Nat) × Bool :=
  (enwik8Load (cachedFetch w).1, (cachedFetch w).2.1, (cachedFetch w).2.2)

/-- Helper for `specWhitespaceTokens`: `acc` is the reversed current field. -/
def splitWSAux : List Char → List Char → List (List Char)
  | [], acc => if acc.isEmpty then [] else [acc.reverse]
  | c :: rest, acc =>
    if isPySpace c then
      if acc.isEmpty then splitWSAux rest []
      else acc.reverse :: splitWSAux rest []
    else splitWSAux rest (c :: acc)

/-- Python `s.split()` with no argument, as the spec's phrase
"whitespace-delimited tokens" denotes: split on maximal runs of whitespace
and drop empty fields. Used only to state the spec's counting claim; the
source uses `split(" ")`. -/
def specWhitespaceTokens (l : List Char) : List (List Char) :=
  splitWSAux l []

section EncodeLemmas

variable {α : Type} [DecidableEq α]

/-- A successful lookup yields an index below the enumeration length. -/
theorem idxOf_lt_length {vl : List α} {t : α} {i : Nat}
    (h : idxOf vl t = some i) : i < vl.length := by
  induction vl generalizing i with
  | nil => simp [idxOf] at h
  | cons a as ih =>
    by_cases ht : t = a
    · simp [idxOf, ht] at h
      simp only [List.length_cons]
      omega
    · simp [idxOf, ht] at h
      obtain ⟨j, hj, rfl⟩ := h
      have := ih hj
      simp only [List.length_cons]
      omega

/-- Lookup fails exactly on tokens outside the enumeration. -/
theorem idxOf_eq_none_iff {vl : List α} {t : α} :
    idxOf vl t = none ↔ t ∉ vl := by
  induction vl with
  | nil => simp [idxOf]
  | cons a as ih =>
    by_cases ht : t = a
    · simp [idxOf, ht]
    · simp [idxOf, ht, ih]

/-- A member always has an index. -/
theorem idxOf_isSome_of_mem {vl : List α} {t : α} (h : t ∈ vl) :
    ∃ i, idxOf vl t = some i := by
  cases hi : idxOf vl t with
  | none => exact absurd (idxOf_eq_none_iff.mp hi) (by simp [h])
  | some i => exact ⟨i, rfl⟩

/-- `idxOf` returns a position that holds the token looked up. -/
theorem idxOf_getp {vl : List α} {t : α} {i : Nat}
    (h : idxOf vl t = some i) : vl.get? i = some t := by
  induction vl generalizing i with
  | nil => simp [idxOf] at h
  | cons a as ih =>
    by_cases ht : t = a
    · simp [idxOf, ht] at h
      simp [← h, ht]
    · simp [idxOf, ht] at h
      obtain ⟨j, hj, rfl⟩ := h
      simpa using ih hj

/-- No two distinct tokens share an index. -/
theorem idxOf_inj {vl : List α} {t u : α} {i : Nat}
    (ht : idxOf vl t = some i) (hu : idxOf vl u = some i) : t = u := by
  have h1 := idxOf_getp ht
  have h2 := idxOf_getp hu
  rw [h1] at h2
  exact Option.some_inj.mp h2

/-- Encoding preserves the number of tokens. -/
theorem encodeList_length {vl ts : List α} {ids : List Nat}
    (h : encodeList vl ts = some ids) : ids.length = ts.length := by
  induction ts generalizing ids with
  | nil => simp [encodeList] at h; simp [← h]
  | cons t ts ih =>
    simp only [encodeList] at h
    cases hi : idxOf vl t with
    | none => rw [hi] at h; simp at h
    | some i =>
      rw [hi] at h
      cases hr : encodeList vl ts with
      | none => rw [hr] at h; simp at h
      | some is =>
        rw [hr] at h
        simp at h
        simp [← h, ih hr]

/-- Every id produced by a successful encoding is a valid vocabulary index. -/
theorem encodeList_mem_lt {vl ts : List α} {ids : List Nat}
    (h : encodeList vl ts = some ids) : ∀ i ∈ ids, i < vl.length := by
  induction ts generalizing ids with
  | nil => simp [encodeList] at h; simp [h]
  | cons t ts ih =>
    simp only [encodeList] at h
    cases hi : idxOf vl t with
    | none => rw [hi] at h; simp at h
    | some i =>
      rw [hi] at h
      cases hr : encodeList vl ts with
      | none => rw [hr] at h; simp at h
      | some is =>
        rw [hr] at h
        simp at h
        subst h
        intro j hj
        rcases List.mem_cons.mp hj with rfl | hj
        · exact idxOf_lt_length hi
        · exact ih hr j hj

/-- Encoding fails exactly when some token is missing from the vocabulary. -/
theorem encodeList_eq_none_iff {vl ts : List α} :
    encodeList vl ts = none ↔ ∃ t ∈ ts, t ∉ vl := by
  induction ts with
  | nil => simp [encodeList]
  | cons t ts ih =>
    simp only [encodeList]
    cases hi : idxOf vl t with
    | none =>
      have := idxOf_eq_none_iff.mp hi
      simp
      exact Or.inl this
    | some i =>
      have hmem : t ∈ vl := by
        by_contra hc
        rw [idxOf_eq_none_iff.mpr hc] at hi
        exact Option.noConfusion hi
      cases hr : encodeList vl ts with
      | none =>
        simp
        right
        exact ih.mp hr
      | some is =>
        simp only
        constructor
        · intro h; exact absurd h (by simp)
        · intro h
          rcases h with ⟨u, hu, hnu⟩
          rcases List.mem_cons.mp hu with rfl | hu
          · exact absurd hmem hnu
          · have : encodeList vl ts = none := ih.mpr ⟨u, hu, hnu⟩
            rw [this] at hr
            exact Option.noConfusion hr

/-- When every token is in the vocabulary, encoding succeeds. -/
theorem encodeList_isSome_of_subset {vl ts : List α}
    (h : ∀ t ∈ ts, t ∈ vl) : ∃ ids, encodeList vl ts = some ids := by
  cases he : encodeList vl ts with
  | none =>
    obtain ⟨t, ht, hnt⟩ := encodeList_eq_none_iff.mp he
    exact absurd (h t ht) hnt
  | some ids => exact ⟨ids, rfl⟩

/-- Encoding a constant stream of one in-vocabulary token. -/
theorem encodeList_replicate {vl : List α} {a : α} {i : Nat}
    (h : idxOf vl a = some i) (n : Nat) :
    encodeList vl (List.replicate n a) = some (List.replicate n i) := by
  induction n with
  | zero => simp [encodeList]
  | succ n ih => simp [List.replicate_succ, encodeList, h, ih]

end EncodeLemmas

/-- Membership in the word-level vocabulary: exactly the training tokens
plus the end-of-sequence token. -/
theorem mem_buildVocab {train : PyFile} {t : Tok} :
    t ∈ buildVocab train ↔ t ∈ trainVocabTokens train ∨ t = eos := by
  unfold buildVocab
  by_cases he : eos ∈ (trainVocabTokens train).dedup
  · simp only [he, if_true, List.mem_dedup]
    constructor
    · exact Or.inl
    · rintro (h | rfl)
      · exact h
      · exact List.mem_dedup.mp he
  · simp only [he, if_false]
    simp [List.mem_append, List.mem_dedup]

/-- The enumeration underlying the word-level vocabulary has no duplicates:
each token receives exactly one index. -/
theorem buildVocab_nodup (train : PyFile) : (buildVocab train).Nodup := by
  unfold buildVocab
  by_cases he : eos ∈ (trainVocabTokens train).dedup
  · simp only [he, if_true]
    exact List.nodup_dedup _
  · simp only [he, if_false]
    refine List.Nodup.append (List.nodup_dedup _) (List.nodup_singleton _) ?_
    intro x hx hx2
    simp at hx2
    subst hx2
    exact he hx

/-- The end-of-sequence token is always in the word-level vocabulary. -/
theorem eos_mem_buildVocab (train : PyFile) : eos ∈ buildVocab train :=
  mem_buildVocab.mpr (Or.inr rfl)

/-- A split token of a training line is in the vocabulary token stream. -/
theorem mem_trainVocabTokens_of {train : PyFile} {l : PyLine} {t : Tok}
    (hl : l ∈ train) (ht : t ∈ splitOnSpace (pystrip l)) :
    t ∈ trainVocabTokens train := by
  unfold trainVocabTokens
  simp only [List.mem_flatten, List.mem_map]
  exact ⟨splitOnSpace (pystrip l), ⟨l, hl, rfl⟩, ht⟩

/-- Every token appearing when encoding the training file itself is in the
vocabulary built from that file. -/
theorem fileTokens_subset_buildVocab {train : PyFile} :
    ∀ t ∈ fileTokens train, t ∈ buildVocab train := by
  intro t ht
  unfold fileTokens at ht
  simp only [List.mem_flatten, List.mem_map] at ht
  obtain ⟨ts, ⟨l, hl, rfl⟩, htl⟩ := ht
  unfold lineTokens at htl
  rcases List.mem_append.mp htl with hsplit | heos
  · exact mem_buildVocab.mpr (Or.inl (mem_trainVocabTokens_of hl hsplit))
  · simp at heos
    subst heos
    exact eos_mem_buildVocab train

/-- Ranges of ids produced by a successful batch encoding. -/
theorem encodeFiles_mem_lt {vl : List Tok} {fs : List PyFile} {ds : List (List Nat)}
    (h : encodeFiles vl fs = some ds) : ∀ s ∈ ds, ∀ i ∈ s, i < vl.length := by
  induction fs generalizing ds with
  | nil => simp [encodeFiles] at h; simp [h]
  | cons f fs ih =>
    simp only [encodeFiles] at h
    cases hi : encodeFile vl f with
    | none => rw [hi] at h; simp at h
    | some ids =>
      rw [hi] at h
      cases hr : encodeFiles vl fs with
      | none => rw [hr] at h; simp at h
      | some rest =>
        rw [hr] at h
        simp at h
        subst h
        intro s hs
        rcases List.mem_cons.mp hs with rfl | hs
        · exact encodeList_mem_lt hi
        · exact ih hr s hs

/-- Inversion of a successful `_load`: the vocabulary is the one built from
the first (training) file and the arrays come from `encodeFiles`. -/
theorem pyLoad_eq_some {files : List PyFile} {v : List Tok} {ds : List (List Nat)}
    (h : pyLoad files = some (v, ds)) :
    ∃ train rest, files = train :: rest ∧ v = buildVocab train ∧
      encodeFiles (buildVocab train) (train :: rest) = some ds := by
  cases files with
  | nil => simp [pyLoad] at h
  | cons train rest =>
    simp only [pyLoad] at h
    cases he : encodeFiles (buildVocab train) (train :: rest) with
    | none => rw [he] at h; simp at h
    | some ds2 =>
      rw [he] at h
      simp at h
      obtain ⟨hv, hds⟩ := h
      exact ⟨train, rest, rfl, hv.symm, by rw [he, hds]⟩

/-- Inversion of a successful `enwik8` load. -/
theorem enwik8Load_eq_some {data : List Nat} {v a b c : List Nat}
    (h : enwik8Load data = some (v, a, b, c)) :
    v = enwik8Vocab data ∧
    encodeList (enwik8Vocab data) (enwik8TrainRegion data) = some a ∧
    encodeList (enwik8Vocab data) (enwik8ValidRegion data) = some b ∧
    encodeList (enwik8Vocab data) (enwik8TestRegion data) = some c := by
  unfold enwik8Load at h
  simp only [Option.bind_eq_some, Option.map_eq_some'] at h
  obtain ⟨a2, ha2, b2, hb2, c2, hc2, hv⟩ := h
  rw [Prod.mk.injEq, Prod.mk.injEq, Prod.mk.injEq] at hv
  obtain ⟨hveq, haeq, hbeq, hceq⟩ := hv
  subst haeq
  subst hbeq
  subst hceq
  exact ⟨hveq.symm, ha2, hb2, hc2⟩

/-- `split(" ")` never returns an empty field list. -/
theorem splitOnSpace_ne_nil (l : List Char) : splitOnSpace l ≠ [] := by
  cases l with
  | nil => simp [splitOnSpace]
  | cons c rest =>
    simp only [splitOnSpace]
    cases h : splitOnSpace rest with
    | nil => simp
    | cons t ts =>
      by_cases hc : c = ' ' <;> simp [hc]

/-- Prepending space-free characters extends the first field of the split. -/
theorem splitOnSpace_append_nospace {x : List Char} (hx : ' ' ∉ x) (l : List Char) :
    ∃ t ts, splitOnSpace l = t :: ts ∧ splitOnSpace (x ++ l) = (x ++ t) :: ts := by
  induction x with
  | nil =>
    cases h : splitOnSpace l with
    | nil => exact absurd h (splitOnSpace_ne_nil l)
    | cons t ts => exact ⟨t, ts, rfl, by simp [h]⟩
  | cons c x ih =>
    have hc : c ≠ ' ' := fun h => hx (h ▸ List.mem_cons_self c x)
    have hx2 : ' ' ∉ x := fun h => hx (List.mem_cons_of_mem c h)
    obtain ⟨t, ts, h1, h2⟩ := ih hx2
    refine ⟨t, ts, h1, ?_⟩
    simp only [List.cons_append, splitOnSpace]
    have h2' : splitOnSpace (x.append l) = (x ++ t) :: ts := h2
    rw [h2']
    simp [hc]

/-- A run of `k` spaces contributes `k` empty fields before the rest. -/
theorem splitOnSpace_replicate_space (k : Nat) (l : List Char) :
    splitOnSpace (List.replicate k ' ' ++ l) =
      List.replicate k ([] : List Char) ++ splitOnSpace l := by
  induction k with
  | zero => simp
  | succ k ih =>
    simp only [List.replicate_succ, List.cons_append, splitOnSpace]
    have ih2 : splitOnSpace ((List.replicate k ' ').append l)
        = List.replicate k [] ++ splitOnSpace l := ih
    rw [ih2]
    cases h : List.replicate k ([] : List Char) ++ splitOnSpace l with
    | nil =>
      rcases List.append_eq_nil.mp h with ⟨-, h2⟩
      exact absurd h2 (splitOnSpace_ne_nil l)
    | cons t ts => simp

/-- A nonempty space-free string splits into the single field it is. -/
theorem splitOnSpace_nospace {y : List Char} (hy : ' ' ∉ y) :
    splitOnSpace y = [y] := by
  obtain ⟨t, ts, h1, h2⟩ := splitOnSpace_append_nospace hy []
  simp [splitOnSpace] at h1
  obtain ⟨rfl, rfl⟩ := h1
  simpa using h2

/-- The three enwik8 regions exactly reassemble the corpus: contiguity and
non-overlap of the byte split. -/
theorem enwik8_partition (data : List Nat) :
    enwik8TrainRegion data ++ enwik8ValidRegion data ++ enwik8TestRegion data = data := by
  unfold enwik8TrainRegion enwik8ValidRegion enwik8TestRegion
  have h1 : data.length - 2 * numTestBytes ≤ data.length - numTestBytes := by
    unfold numTestBytes
    omega
  have e1 : data.take (data.length - 2 * numTestBytes)
      = (data.take (data.length - numTestBytes)).take (data.length - 2 * numTestBytes) := by
    rw [List.take_take, min_eq_left h1]
  rw [e1, List.take_append_drop, List.take_append_drop]

/-- Region lengths for a corpus longer than 10,000,000 bytes. -/
theorem enwik8_region_lengths (data : List Nat) (h : 10000000 < data.length) :
    (enwik8TrainRegion data).length = data.length - 10000000 ∧
    (enwik8ValidRegion data).length = 5000000 ∧
    (enwik8TestRegion data).length = 5000000 := by
  unfold enwik8TrainRegion enwik8ValidRegion enwik8TestRegion numTestBytes
  simp only [List.length_take, List.length_drop]
  omega

/-- `List.dedup` on the singleton byte list. -/
theorem dedup_zero_singleton : ([0] : List Nat).dedup = [0] := by decide

/-- A concrete successful enwik8 load: a corpus of 10,000,001 zero bytes.
Proved through `replicate` lemmas; the big lists are never evaluated. -/
theorem enwik8Load_replicate :
    enwik8Load (List.replicate 10000001 0) =
      some ([0], [0], List.replicate 5000000 0, List.replicate 5000000 0) := by
  have hlen : (List.replicate 10000001 (0 : Nat)).length = 10000001 :=
    List.length_replicate 10000001 0
  have htr : enwik8TrainRegion (List.replicate 10000001 0) = [0] := by
    rw [enwik8TrainRegion, numTestBytes, hlen, List.take_replicate]
    norm_num
  have hva : enwik8ValidRegion (List.replicate 10000001 0) = List.replicate 5000000 0 := by
    rw [enwik8ValidRegion, numTestBytes, hlen, List.take_replicate, List.drop_replicate]
    norm_num
  have hte : enwik8TestRegion (List.replicate 10000001 0) = List.replicate 5000000 0 := by
    rw [enwik8TestRegion, numTestBytes, hlen, List.drop_replicate]
  have hvocab : enwik8Vocab (List.replicate 10000001 0) = [0] := by
    rw [enwik8Vocab, htr, dedup_zero_singleton]
  have hidx : idxOf ([0] : List Nat) 0 = some 0 := rfl
  have h1 : encodeList ([0] : List Nat) [0] = some [0] := rfl
  rw [enwik8Load, hvocab, htr, hva, hte, h1, encodeList_replicate hidx]
  rfl

/-- **C1**: for an enwik8 corpus of N > 10,000,000 bytes, the three regions
are contiguous and non-overlapping (they reassemble the corpus), the encoded
training array has N - 10,000,000 elements, the validation and test arrays
have exactly 5,000,000 elements each, and the three lengths sum to N. -/
theorem enwik8_split_sizes (data : List Nat) (v a b c : List Nat)
    (hN : 10000000 < data.length)
    (h : enwik8Load data = some (v, a, b, c)) :
    a.length = data.length - 10000000 ∧
    b.length = 5000000 ∧
    c.length = 5000000 ∧
    a.length + b.length + c.length = data.length ∧
    enwik8TrainRegion data ++ enwik8ValidRegion data ++ enwik8TestRegion data = data := by
  obtain ⟨-, ha, hb, hc⟩ := enwik8Load_eq_some h
  have la := encodeList_length ha
  have lb := encodeList_length hb
  have lc := encodeList_length hc
  obtain ⟨l1, l2, l3⟩ := enwik8_region_lengths data hN
  exact ⟨by omega, by omega, by omega, by omega, enwik8_partition data⟩

/-- Witness for C1 at a concrete corpus of 10,000,001 zero bytes. -/
theorem enwik8_split_sizes_witness :
    10000000 < (List.replicate 10000001 (0 : Nat)).length ∧
    ([0] : List Nat).length = (List.replicate 10000001 (0 : Nat)).length - 10000000 ∧
    (List.replicate 5000000 (0 : Nat)).length = 5000000 := by
  have hN : 10000000 < (List.replicate 10000001 (0 : Nat)).length := by
    rw [List.length_replicate]
    norm_num
  have h := enwik8_split_sizes (List.replicate 10000001 0) [0] [0]
    (List.replicate 5000000 0) (List.replicate 5000000 0) hN enwik8Load_replicate
  exact ⟨hN, h.1, h.2.1⟩

/-- **C3**: whenever a load returns successfully, every id in every encoded
split array is a valid index into the returned vocabulary, on both the
word-level (`pyLoad`) and the character-level (`enwik8Load`) paths. -/
theorem encoded_ids_in_range (files : List PyFile) (v : List Tok)
    (splits : List (List Nat)) (data : List Nat) (ev a b c : List Nat)
    (hw : pyLoad files = some (v, splits))
    (he : enwik8Load data = some (ev, a, b, c)) :
    (∀ s ∈ splits, ∀ i ∈ s, i < v.length) ∧
    (∀ i ∈ a, i < ev.length) ∧
    (∀ i ∈ b, i < ev.length) ∧
    (∀ i ∈ c, i < ev.length) := by
  obtain ⟨train, rest, rfl, hv, henc⟩ := pyLoad_eq_some hw
  subst hv
  obtain ⟨hev, ha, hb, hc⟩ := enwik8Load_eq_some he
  rw [hev]
  exact ⟨encodeFiles_mem_lt henc, encodeList_mem_lt ha, encodeList_mem_lt hb,
    encodeList_mem_lt hc⟩

/-- Witness for C3 at a one-line corpus and the empty byte corpus. -/
theorem encoded_ids_in_range_witness :
    pyLoad [[['a']]] = some ([['a'], eos], [[0, 1]]) ∧
    enwik8Load [] = some ([], [], [], []) ∧
    (∀ s ∈ [[0, 1]], ∀ i ∈ s, i < ([['a'], eos] : List Tok).length) := by
  have h1 : pyLoad [[['a']]] = some ([['a'], eos], [[0, 1]]) := by decide
  have h2 : enwik8Load [] = some ([], [], [], []) := by decide
  exact ⟨h1, h2,
    (encoded_ids_in_range [[['a']]] [['a'], eos] [[0, 1]] [] [] [] [] [] h1 h2).1⟩

/-- **C4**: the vocabulary is built from the training split only and encoding
raises a lookup failure exactly when some token (word, or byte for enwik8)
is absent from that training-derived vocabulary; there is no unknown-token
fallback. Encoding the training split itself never fails (word-level). -/
theorem strict_vocabulary_encoding (train f : PyFile) (data region : List Nat) :
    (encodeFile (buildVocab train) f = none ↔
      ∃ t ∈ fileTokens f, t ∉ buildVocab train) ∧
    (∃ ids, encodeFile (buildVocab train) train = some ids) ∧
    (encodeList (enwik8Vocab data) region = none ↔
      ∃ b ∈ region, b ∉ enwik8Vocab data) :=
  ⟨encodeList_eq_none_iff, encodeList_isSome_of_subset fileTokens_subset_buildVocab,
    encodeList_eq_none_iff⟩

/-- Witness for C4: a validation-only word fails; the training file itself
encodes. -/
theorem strict_vocabulary_encoding_witness :
    encodeFile (buildVocab [['a']]) [['b']] = none ∧
    (∃ ids, encodeFile (buildVocab [['a']]) [['a']] = some ids) :=
  ⟨(strict_vocabulary_encoding [['a']] [['b']] [] []).1.mpr
      ⟨['b'], by decide, by decide⟩,
   (strict_vocabulary_encoding [['a']] [['a']] [] []).2.1⟩

/-- **C6**: the vocabulary enumeration is duplicate-free, so tokens and
indices 0 .. len-1 are in bijection: every member token has an index below
the length, and no two tokens share an index; the word-level vocabulary
contains `eos`, and membership is exactly the training tokens plus `eos`
(for enwik8: exactly the distinct training-region bytes). -/
theorem vocabulary_bijection (train : PyFile) (data : List Nat) :
    (buildVocab train).Nodup ∧
    eos ∈ buildVocab train ∧
    (∀ t, t ∈ buildVocab train ↔ (t ∈ trainVocabTokens train ∨ t = eos)) ∧
    (∀ t ∈ buildVocab train,
      ∃ i, idxOf (buildVocab train) t = some i ∧ i < (buildVocab train).length) ∧
    (∀ t u i, idxOf (buildVocab train) t = some i →
      idxOf (buildVocab train) u = some i → t = u) ∧
    (enwik8Vocab data).Nodup ∧
    (∀ b, b ∈ enwik8Vocab data ↔ b ∈ enwik8TrainRegion data) := by
  refine ⟨buildVocab_nodup train, eos_mem_buildVocab train, fun t => mem_buildVocab,
    fun t ht => ?_, fun t u i ht hu => idxOf_inj ht hu, List.nodup_dedup _,
    fun b => List.mem_dedup⟩
  obtain ⟨i, hi⟩ := idxOf_isSome_of_mem ht
  exact ⟨i, hi, idxOf_lt_length hi⟩

/-- Witness for C6 at concrete corpora. -/
theorem vocabulary_bijection_witness :
    (buildVocab [['a']]).Nodup ∧ eos ∈ buildVocab [['a']] ∧
    (enwik8Vocab [0, 0, 1]).Nodup :=
  ⟨(vocabulary_bijection [['a']] [0, 0, 1]).1,
   (vocabulary_bijection [['a']] [0, 0, 1]).2.1,
   (vocabulary_bijection [['a']] [0, 0, 1]).2.2.2.2.2.1⟩

/-- **C2** (counterexample): a blank training line is split by `split(" ")`
into one empty-string token, so it contributes 2 ids (empty token + eos),
while its whitespace-token count plus one is 1. The claimed per-line count
fails on the line `""`. -/
theorem line_count_counterexample :
    pyLoad [[[]]] = some ([([] : Tok), eos], [[0, 1]]) ∧
    (specWhitespaceTokens (pystrip ([] : PyLine))).length + 1 = 1 ∧
    ([0, 1] : List Nat).length ≠ (specWhitespaceTokens (pystrip ([] : PyLine))).length + 1 := by
  refine ⟨by decide, by decide, by decide⟩

/-- **C2** (amended): the number of ids a line contributes equals the number
of single-space-delimited fields of the stripped line plus one (the appended
end-of-sequence id); this agrees with the whitespace-token count plus one
exactly for lines with no empty fields. -/
theorem line_count_amended (vl : List Tok) (l : PyLine) (ids : List Nat)
    (h : encodeList vl (lineTokens l) = some ids) :
    ids.length = (splitOnSpace (pystrip l)).length + 1 := by
  have hlen := encodeList_length h
  unfold lineTokens at hlen
  rw [List.length_append] at hlen
  simpa using hlen

/-- Witness for the amended C2 on a concrete blank line. -/
theorem line_count_amended_witness :
    encodeList (buildVocab [[]]) (lineTokens []) = some [0, 1] ∧
    ([0, 1] : List Nat).length = (splitOnSpace (pystrip ([] : PyLine))).length + 1 :=
  ⟨by decide, line_count_amended (buildVocab [[]]) [] [0, 1] (by decide)⟩

/-- **C5**: `load_dataset` routes `"enwik8"`, `"ptb"` and `"wikitext2"` to
their procedures and every other name — including `"wikitext103"` and
arbitrary unrecognized strings — to the WikiText-103 path, raising no
error. -/
theorem load_dataset_routing {α : Type} (e p : α) (w : String → α) (name : String)
    (h1 : name ≠ "enwik8") (h2 : name ≠ "ptb") (h3 : name ≠ "wikitext2") :
    load_dataset e p w "enwik8" = e ∧
    load_dataset e p w "ptb" = p ∧
    load_dataset e p w "wikitext2" = w "2" ∧
    load_dataset e p w "wikitext103" = w "103" ∧
    load_dataset e p w name = w "103" := by
  refine ⟨by simp [load_dataset], by simp [load_dataset], by simp [load_dataset],
    by simp [load_dataset], by simp [load_dataset, h1, h2, h3]⟩

/-- Witness for C5 at the unrecognized name `"bogus"`. -/
theorem load_dataset_routing_witness :
    "bogus" ≠ "enwik8" ∧
    load_dataset (0 : Nat) 1 (fun s => if s = "103" then 2 else 3) "bogus"
      = (fun s : String => if s = "103" then (2 : Nat) else 3) "103" :=
  ⟨by decide,
   (load_dataset_routing 0 1 (fun s => if s = "103" then 2 else 3) "bogus"
      (by decide) (by decide) (by decide)).2.2.2.2⟩

/-- **C7**: a second load over a warm cache touches the network iff never
(`false`) and returns the same result as the cold run that populated the
cache; in general any load with a populated cache reads the cached corpus
and performs no fetch. Both the word-level and the enwik8 pipelines. -/
theorem warm_cache_idempotent (remoteW : List PyFile) (remoteE : List Nat) :
    (∀ (w : World (List PyFile)) (c : List PyFile), w.cache = some c →
      (runWordLoad w).2.2 = false ∧ (runWordLoad w).1 = pyLoad c) ∧
    (∀ (w : World (List Nat)) (c : List Nat), w.cache = some c →
      (runEnwik8Load w).2.2 = false ∧ (runEnwik8Load w).1 = enwik8Load c) ∧
    (runWordLoad (runWordLoad ⟨remoteW, none⟩).2.1).2.2 = false ∧
    (runWordLoad (runWordLoad ⟨remoteW, none⟩).2.1).1 = (runWordLoad ⟨remoteW, none⟩).1 ∧
    (runEnwik8Load (runEnwik8Load ⟨remoteE, none⟩).2.1).2.2 = false ∧
    (runEnwik8Load (runEnwik8Load ⟨remoteE, none⟩).2.1).1 = (runEnwik8Load ⟨remoteE, none⟩).1 := by
  have hmissW : cachedFetch ⟨remoteW, none⟩
      = (remoteW, ⟨remoteW, some remoteW⟩, true) := rfl
  have hmissE : cachedFetch ⟨remoteE, none⟩
      = (remoteE, ⟨remoteE, some remoteE⟩, true) := rfl
  have hhit : ∀ {κ : Type} (r : κ) (c : κ),
      cachedFetch ⟨r, some c⟩ = (c, ⟨r, some c⟩, false) := fun _ _ => rfl
  refine ⟨?_, ?_, ?_, ?_, ?_, ?_⟩
  · rintro ⟨r, ca⟩ c h
    cases h
    simp only [runWordLoad, hhit]
    exact ⟨trivial, trivial⟩
  · rintro ⟨r, ca⟩ c h
    cases h
    simp only [runEnwik8Load, hhit]
    exact ⟨trivial, trivial⟩
  · simp only [runWordLoad, hmissW, hhit]
  · simp only [runWordLoad, hmissW, hhit]
  · simp only [runEnwik8Load, hmissE, hhit]
  · simp only [runEnwik8Load, hmissE, hhit]

/-- Witness for C7 at a concrete warm world. -/
theorem warm_cache_idempotent_witness :
    (runWordLoad ⟨[], some []⟩).2.2 = false ∧ (runWordLoad ⟨[], some []⟩).1 = pyLoad [] :=
  (warm_cache_idempotent [] []).1 ⟨[], some []⟩ [] rfl

/-- **C8**: the `wikitext` entry point's validation fails (ValueError) iff
the variant is neither `"2"` nor `"103"`; both recognized values pass. -/
theorem wikitext_variant_validation (d : String) :
    ((∃ msg, wikitextCheck d = Except.error msg) ↔ (d ≠ "2" ∧ d ≠ "103")) ∧
    wikitextCheck "2" = Except.ok () ∧
    wikitextCheck "103" = Except.ok () := by
  refine ⟨?_, by simp [wikitextCheck], by simp [wikitextCheck]⟩
  unfold wikitextCheck
  by_cases h : d = "2" ∨ d = "103"
  · simp only [h, not_true, if_false]
    constructor
    · rintro ⟨msg, hmsg⟩
      exact absurd hmsg (by simp)
    · rintro ⟨h2, h103⟩
      rcases h with rfl | rfl
      · exact absurd rfl h2
      · exact absurd rfl h103
  · simp only [h, not_false_iff, if_true]
    constructor
    · rintro -
      exact ⟨fun h2 => h (Or.inl h2), fun h103 => h (Or.inr h103)⟩
    · rintro -
      exact ⟨_, rfl⟩

/-- Witness for C8 at the invalid variant `"42"`. -/
theorem wikitext_variant_validation_witness :
    (∃ msg, wikitextCheck "42" = Except.error msg) ∧
    wikitextCheck "2" = Except.ok () :=
  ⟨(wikitext_variant_validation "42").1.mpr ⟨by decide, by decide⟩,
   (wikitext_variant_validation "42").2.1⟩

/-- **C10**: word-level lines are split on the single space character, not on
general whitespace: a line empty after stripping splits into one
empty-string token; `k` interior spaces between two space-free nonempty
words produce `k - 1` empty-string tokens between them; any empty token
produced from a training line puts the empty string into the vocabulary;
and a blank line contributes exactly the empty token followed by `eos`,
hence exactly two ids when encoded. -/
theorem single_space_split_semantics :
    (∀ l : PyLine, pystrip l = [] → splitOnSpace (pystrip l) = [[]]) ∧
    (∀ (x y : List Char) (k : Nat), ' ' ∉ x → ' ' ∉ y → x ≠ [] → y ≠ [] → 1 ≤ k →
      splitOnSpace (x ++ List.replicate k ' ' ++ y) =
        x :: (List.replicate (k - 1) ([] : List Char) ++ [y])) ∧
    (∀ (train : PyFile) (l : PyLine), l ∈ train →
      ([] : List Char) ∈ splitOnSpace (pystrip l) → ([] : Tok) ∈ buildVocab train) ∧
    (∀ l : PyLine, pystrip l = [] → lineTokens l = [([] : Tok), eos]) ∧
    (∀ (vl : List Tok) (l : PyLine) (ids : List Nat), pystrip l = [] →
      encodeList vl (lineTokens l) = some ids → ids.length = 2) := by
  have hblank : ∀ l : PyLine, pystrip l = [] → lineTokens l = [([] : Tok), eos] := by
    intro l h
    unfold lineTokens
    rw [h]
    rfl
  refine ⟨?_, ?_, ?_, hblank, ?_⟩
  · intro l h
    rw [h]
    rfl
  · intro x y k hx hy hxne hyne hk
    obtain ⟨t, ts, h1, h2⟩ := splitOnSpace_append_nospace hx (List.replicate k ' ' ++ y)
    rw [splitOnSpace_replicate_space, splitOnSpace_nospace hy] at h1
    cases k with
    | zero => omega
    | succ k =>
      rw [List.replicate_succ, List.cons_append] at h1
      injection h1 with ht hts
      subst ht
      subst hts
      rw [List.append_assoc, h2]
      simp
  · intro train l hl h
    exact mem_buildVocab.mpr (Or.inl (mem_trainVocabTokens_of hl h))
  · intro vl l ids h he
    rw [hblank l h] at he
    have := encodeList_length he
    simpa using this

/-- Witness for C10 at concrete lines. -/
theorem single_space_split_semantics_witness :
    splitOnSpace (pystrip []) = [[]] ∧
    splitOnSpace (['a'] ++ List.replicate 2 ' ' ++ ['b'])
      = ['a'] :: (List.replicate 1 ([] : List Char) ++ [['b']]) ∧
    ([] : Tok) ∈ buildVocab [[]] ∧
    lineTokens [] = [([] : Tok), eos] ∧
    ([0, 1] : List Nat).length = 2 :=
  ⟨single_space_split_semantics.1 [] (by decide),
   single_space_split_semantics.2.1 ['a'] ['b'] 2 (by decide) (by decide)
     (by decide) (by decide) (by decide),
   single_space_split_semantics.2.2.1 [[]] [] (by decide) (by decide),
   single_space_split_semantics.2.2.2.1 [] (by decide),
   single_space_split_semantics.2.2.2.2 (buildVocab [[]]) [] [0, 1] (by decide) (by decide)⟩
